import Mathlib

/-!
Verification development for the FrameForge video pipeline.

The Python modules `app/video.py`, `app/audio.py`, `app/narrator.py` and
`app/narrative.py` are shallowly embedded below.  Timestamps and durations are
modelled as exact rationals (`ℚ`); dialogue texts, captions and paths are
`String`s; Python dicts with a fixed key set become Lean structures; the
side-effecting per-timestamp ffmpeg invocations are abstracted by an oracle
`ℕ → ExtractOutcome` giving, for each loop index, whether the subprocess call
succeeded and produced the output file (`ok`), succeeded without producing the
file (`noFile`), or raised `CalledProcessError`/`TimeoutExpired` (`err`).
Fallible functions return `Except`.
-/

namespace FrameForge

/-! ## video.py -/

/-- A frame dict produced by `extract_frames_*` in `app/video.py`
(keys `timestamp`, `path`, `scene_number`). -/
structure XFrame where
  timestamp : ℚ
  path : String
  scene_number : ℕ
deriving DecidableEq

/-- Outcome of one per-timestamp ffmpeg invocation: the subprocess call
returned normally and the output file exists (`ok`), returned normally but the
file was not written (`noFile`), or raised (`err`). -/
inductive ExtractOutcome
  | ok
  | noFile
  | err
deriving DecidableEq

/-- The `while current_time < duration` loop of
`extract_frames_fixed_interval` (video.py lines 66-70), written with explicit
fuel.  The Python loop terminates iff `interval > 0`; the fuel
`⌈duration/interval⌉.toNat + 1` is proven sufficient in that case
(`targetTimesGo_eq`), so `target_times` agrees with the loop whenever the loop
terminates. -/
def targetTimesGo (duration interval : ℚ) : ℕ → ℚ → List ℚ
  | 0, _ => []
  | fuel + 1, t =>
    if t < duration then t :: targetTimesGo duration interval fuel (t + interval)
    else []

/-- `target_times`: the list built by the loop at lines 66-70 of video.py,
starting from `current_time = 0.0`. -/
def target_times (duration interval : ℚ) : List ℚ :=
  targetTimesGo duration interval (⌈duration / interval⌉.toNat + 1) 0

/-- Output filename `frame_%04d.jpg` of the fixed-interval extractor (the
`%04d` zero padding is irrelevant to the claims and is not modelled). -/
def framePath (n : ℕ) : String := "frame_" ++ toString n ++ ".jpg"

/-- Output filename `scene_%04d.jpg` of the scene-detection extractor. -/
def scenePath (n : ℕ) : String := "scene_" ++ toString n ++ ".jpg"

/-- The `for idx, timestamp in enumerate(target_times)` loop of
`extract_frames_fixed_interval` (video.py lines 77-104):
`frame_num = idx + 1`; on success with the file present the frame is appended;
a missing file is skipped; `CalledProcessError`/`TimeoutExpired` is caught and
the loop continues. -/
def fixedFramesGo (outcome : ℕ → ExtractOutcome) : ℕ → List ℚ → List XFrame
  | _, [] => []
  | idx, t :: rest =>
    match outcome idx with
    | .ok => ⟨t, framePath (idx + 1), idx + 1⟩ :: fixedFramesGo outcome (idx + 1) rest
    | .noFile => fixedFramesGo outcome (idx + 1) rest
    | .err => fixedFramesGo outcome (idx + 1) rest

/-- Message of the `RuntimeError` at video.py line 63. -/
def durationErrMsg : String := "Could not determine video duration"

/-- Message of the `RuntimeError` at video.py line 107. -/
def noFramesErrMsg : String := "No frames were extracted"

/-- `extract_frames_fixed_interval` (video.py lines 49-110): raises when the
probed duration is `<= 0`, extracts one frame per target timestamp tolerating
per-frame failures, and raises when no frame at all was extracted. -/
def extract_frames_fixed_interval (duration interval : ℚ)
    (outcome : ℕ → ExtractOutcome) : Except String (List XFrame) :=
  if duration ≤ 0 then .error durationErrMsg
  else
    let frames := fixedFramesGo outcome 0 (target_times duration interval)
    if frames.isEmpty then .error noFramesErrMsg else .ok frames

/-- The `for idx, scene in enumerate(scene_list)` loop of
`extract_frames_scene_detection` (video.py lines 158-185).  The ffmpeg call at
line 178 runs with `check=True` and is NOT wrapped in a per-frame
`try`/`except`, so an error (`err`) raises out of the loop, discarding the
frames appended so far; the caller's `except Exception` then falls back.
A run with no exception returns the appended frames (a missing output file is
silently skipped). -/
def sceneFramesGo (outcome : ℕ → ExtractOutcome) : ℕ → List ℚ → Except Unit (List XFrame)
  | _, [] => .ok []
  | idx, t :: rest =>
    match outcome idx with
    | .err => .error ()
    | .noFile => sceneFramesGo outcome (idx + 1) rest
    | .ok =>
      match sceneFramesGo outcome (idx + 1) rest with
      | .ok fs => .ok (⟨t, scenePath (idx + 1), idx + 1⟩ :: fs)
      | .error e => .error e

/-- `extract_frames_scene_detection` (video.py lines 113-195) after scene
detection produced `scene_list` (the start times of the detected scenes).
`fallback` is the result of `extract_frames_fixed_interval(video_path,
output_dir, 3.0)`, used both when fewer than one scene was detected (line 151)
and when the extraction loop raised (lines 190-195). -/
def extract_frames_scene_detection (scene_list : List ℚ)
    (outcome : ℕ → ExtractOutcome) (fallback : Except String (List XFrame)) :
    Except String (List XFrame) :=
  if scene_list.length < 1 then fallback
  else
    match sceneFramesGo outcome 0 scene_list with
    | .ok frames => .ok frames
    | .error _ => fallback

/-! ## audio.py -/

/-- A Whisper transcript span (`segment["start"]`, `segment["end"]`,
`segment["text"]`).  The field `stop` models the dict key `"end"` (`end` is a
reserved word in Lean). -/
structure Span where
  start : ℚ
  stop : ℚ
  text : String
deriving DecidableEq

/-- A dialogue dict produced by `extract_dialogue_segments` (keys `start`,
`end` — modelled as `stop` —, `duration`, `text`). -/
structure Dialogue where
  start : ℚ
  stop : ℚ
  duration : ℚ
  text : String
deriving DecidableEq

/-- `extract_dialogue_segments` (audio.py lines 135-166): the loop over
`transcription_result["segments"]` keeping spans with
`duration >= min_duration` and stripping the text. -/
def extract_dialogue_segments (segments : List Span) (min_duration : ℚ) :
    List Dialogue :=
  match segments with
  | [] => []
  | s :: rest =>
    if s.stop - s.start ≥ min_duration then
      ⟨s.start, s.stop, s.stop - s.start, s.text.trim⟩ ::
        extract_dialogue_segments rest min_duration
    else
      extract_dialogue_segments rest min_duration

/-- A scene/frame dict as it flows through `match_dialogue_to_scenes` and
`merge_consecutive_dialogues`.  `extra` stands for any further keys the dict
may carry; `dialogues` absent is modelled as `[]` (both are falsy in Python
and are treated identically by the code under study). -/
structure Scene where
  timestamp : ℚ
  path : String
  scene_number : ℕ
  caption : String
  extra : List (String × String)
  dialogues : List String
  has_dialogue : Bool
deriving DecidableEq

/-- The inner `for dialogue in dialogues` loop of `match_dialogue_to_scenes`
(audio.py lines 190-195): collect the texts of the dialogues overlapping the
±5 second window around the scene timestamp. -/
def matched_texts (scene_time : ℚ) : List Dialogue → List String
  | [] => []
  | d :: rest =>
    if d.start ≤ scene_time + 5 ∧ d.stop ≥ scene_time - 5 then
      d.text :: matched_texts scene_time rest
    else
      matched_texts scene_time rest

/-- The body of the outer loop of `match_dialogue_to_scenes` (audio.py lines
185-206): copy the scene, attach the matched texts, set `has_dialogue`. -/
def enhance_scene (dialogues : List Dialogue) (scene : Scene) : Scene :=
  let texts := matched_texts scene.timestamp dialogues
  if texts ≠ [] then { scene with dialogues := texts, has_dialogue := true }
  else { scene with dialogues := [], has_dialogue := false }

/-- `match_dialogue_to_scenes` (audio.py lines 169-208). -/
def match_dialogue_to_scenes (scenes : List Scene) (dialogues : List Dialogue) :
    List Scene :=
  scenes.map (enhance_scene dialogues)

/-! ## narrator.py -/

/-- The dedup key of narrator.py line 59: `dialogue[:50].lower().strip()`.
Python slicing counts code points, as does `String.take`. -/
def fingerprint (dialogue : String) : String :=
  ((dialogue.take 50).toLower).trim

/-- The inner `for dialogue in scene["dialogues"]` loop of
`merge_consecutive_dialogues` (narrator.py lines 56-63), threading the
`seen_dialogues` set (modelled as a list used only through membership;
narrator.py adds with `set.add`, modelled by consing the key).  Returns the
kept dialogues and the final seen set. -/
def dedupDialogues (seen : List String) : List String → List String × List String
  | [] => ([], seen)
  | d :: rest =>
    let key := fingerprint d
    if key ∈ seen then dedupDialogues seen rest
    else
      let p := dedupDialogues (key :: seen) rest
      (d :: p.1, p.2)

/-- The body of the outer loop of `merge_consecutive_dialogues` (narrator.py
lines 50-68): copy the scene; when `scene.get("dialogues")` is truthy,
deduplicate and reset `has_dialogue`. -/
def mergeScene (seen : List String) (scene : Scene) : Scene × List String :=
  if scene.dialogues.isEmpty then (scene, seen)
  else
    let p := dedupDialogues seen scene.dialogues
    ({ scene with dialogues := p.1, has_dialogue := decide (0 < p.1.length) }, p.2)

/-- The outer loop of `merge_consecutive_dialogues`. -/
def mergeGo (seen : List String) : List Scene → List Scene
  | [] => []
  | scene :: rest =>
    let p := mergeScene seen scene
    p.1 :: mergeGo p.2 rest

/-- `merge_consecutive_dialogues` (narrator.py lines 32-70). -/
def merge_consecutive_dialogues (scenes : List Scene) : List Scene :=
  if scenes.isEmpty then scenes else mergeGo [] scenes

/-! ## narrative.py -/

/-- Python `range(start, stop, step)` for a non-negative `step` (`range` with
`step = 0` raises in Python and never occurs at the call site; it is mapped to
`[]`).  The element count is the standard `⌈(stop - start)/step⌉` in `ℕ`. -/
def pyRange (start stop step : ℕ) : List ℕ :=
  if step = 0 then []
  else (List.range ((stop - start + step - 1) / step)).map fun k => start + k * step

/-- The frame-sampling step of `generate_screenplay_from_captions`
(narrative.py lines 226-237): all frames when there are at most 15, otherwise
indices `[0,1,2] ++ range(3, total-3, step) ++ [total-3, total-2, total-1]`
with `step = (total-6) // min(9, total-6)`, guarded by `i < total`. -/
def select_frames {α : Type} (frame_data : List α) : List α :=
  let total := frame_data.length
  if total ≤ 15 then frame_data
  else
    let middle_count := min 9 (total - 6)
    let step := if 0 < middle_count then (total - 6) / middle_count else 1
    let indices := [0, 1, 2] ++ pyRange 3 (total - 3) step ++
      [total - 3, total - 2, total - 1]
    (indices.filter fun i => i < total).filterMap fun i => frame_data.get? i

/-- The Scene fields other than `dialogues` and `has_dialogue` agree
(used to state that the aligner and the deduplicator touch nothing else). -/
def preserves_other_fields (o s : Scene) : Prop :=
  o.timestamp = s.timestamp ∧ o.path = s.path ∧
    o.scene_number = s.scene_number ∧ o.caption = s.caption ∧ o.extra = s.extra

/-- Modelled from the amended reading of the deduplication rule: keep each
dialogue string whose fingerprint has not occurred on ANY earlier dialogue of
the run — on an earlier frame or earlier within the same frame's dialogue
list.  Stated independently of the seen-set threading of the implementation. -/
def keepFirstOccurrences : List String → List String
  | [] => []
  | d :: rest =>
    d :: keepFirstOccurrences
      (rest.filter fun d2 => decide (fingerprint d2 ≠ fingerprint d))
termination_by l => l.length
decreasing_by
  simp only [List.length_cons]
  exact Nat.lt_succ_of_le (List.length_filter_le _ _)

/-! ## Concrete failure scenarios used below -/

/-- Scenario: the ffmpeg call at the first target timestamp fails, every
later one succeeds. -/
def failFirst : ℕ → ExtractOutcome := fun i => if i = 0 then .err else .ok

/-- Scenario: the ffmpeg call at the first detected scene succeeds, every
later one fails. -/
def failAfterFirst : ℕ → ExtractOutcome := fun i => if i = 0 then .ok else .err

/-! ## Lemmas on the fixed-interval target timestamps -/

/-- For a positive interval, the natural `k` has `k·I < D` iff `k` lies below
`⌈D/I⌉.toNat`. -/
lemma natMul_lt_duration_iff {duration interval : ℚ} (hI : 0 < interval) (k : ℕ) :
    (k : ℚ) * interval < duration ↔ k < (⌈duration / interval⌉).toNat := by
  rw [← lt_div_iff₀ hI, Int.lt_toNat, Int.lt_ceil, Int.cast_natCast]

/-- The fuelled while-loop, started at `k·I` with enough fuel, yields the
arithmetic progression `k·I, (k+1)·I, …` up to (excluding) the duration. -/
lemma targetTimesGo_eq {duration interval : ℚ} (hI : 0 < interval) :
    ∀ (n k : ℕ), (⌈duration / interval⌉).toNat ≤ k + n →
      targetTimesGo duration interval n ((k : ℚ) * interval) =
        (List.range ((⌈duration / interval⌉).toNat - k)).map
          (fun j => ((k + j : ℕ) : ℚ) * interval) := by
  intro n
  induction n with
  | zero =>
    intro k hk
    rw [targetTimesGo, Nat.sub_eq_zero_of_le (by omega), List.range_zero, List.map_nil]
  | succ n ih =>
    intro k hk
    rw [targetTimesGo]
    by_cases hlt : k < (⌈duration / interval⌉).toNat
    · rw [if_pos ((natMul_lt_duration_iff hI k).mpr hlt)]
      have hstep : (k : ℚ) * interval + interval = ((k + 1 : ℕ) : ℚ) * interval := by
        push_cast; ring
      rw [hstep, ih (k + 1) (by omega)]
      have hsub : (⌈duration / interval⌉).toNat - k =
          ((⌈duration / interval⌉).toNat - (k + 1)) + 1 := by omega
      rw [hsub, List.range_succ_eq_map, List.map_cons, List.map_map]
      refine List.cons_eq_cons.mpr ⟨by norm_num, List.map_congr_left ?_⟩
      intro j hj
      have hjj : k + 1 + j = k + (j + 1) := by omega
      simp only [Function.comp_apply, Nat.succ_eq_add_one, hjj]
    · rw [if_neg (by rw [natMul_lt_duration_iff hI]; omega),
        Nat.sub_eq_zero_of_le (by omega), List.range_zero, List.map_nil]

/-- `target_times` is the arithmetic progression `0, I, 2I, …` of length
`⌈D/I⌉.toNat`. -/
lemma target_times_eq {duration interval : ℚ} (hI : 0 < interval) :
    target_times duration interval =
      (List.range ((⌈duration / interval⌉).toNat)).map
        (fun (j : ℕ) => (j : ℚ) * interval) := by
  have h0 : (0 : ℚ) = ((0 : ℕ) : ℚ) * interval := by push_cast; ring
  rw [target_times, h0,
    targetTimesGo_eq hI ((⌈duration / interval⌉).toNat + 1) 0 (by omega)]
  simp only [Nat.sub_zero, Nat.zero_add]

/-- C2: for every duration `D > 0` and interval `I > 0`, the fixed-interval
sampler's target timestamps are exactly the arithmetic progression
`0, I, 2I, …` taken while strictly less than `D`, and their number is
`⌈D / I⌉`. -/
theorem C2_fixed_interval_targets (duration interval : ℚ)
    (hD : 0 < duration) (hI : 0 < interval) :
    target_times duration interval =
      (List.range ((⌈duration / interval⌉).toNat)).map
        (fun (j : ℕ) => (j : ℚ) * interval) ∧
    (target_times duration interval).length = (⌈duration / interval⌉).toNat ∧
    ∀ t ∈ target_times duration interval, t < duration := by
  refine ⟨target_times_eq hI, ?_, ?_⟩
  · rw [target_times_eq hI, List.length_map, List.length_range]
  · intro t ht
    rw [target_times_eq hI, List.mem_map] at ht
    obtain ⟨j, hj, rfl⟩ := ht
    rw [List.mem_range] at hj
    exact (natMul_lt_duration_iff hI j).mpr hj

/-- C2 witness: the theorem instantiated at `D = 2`, `I = 1`. -/
theorem C2_witness :
    (target_times 2 1).length = (⌈(2 : ℚ) / 1⌉).toNat :=
  (C2_fixed_interval_targets 2 1 (by norm_num) (by norm_num)).2.1

/-! ## Lemmas on the per-frame extraction loops -/

/-- The fixed-interval extraction loop keeps exactly the targets whose ffmpeg
invocation succeeded and produced the output file, each frame carrying the
1-based position of its target in the target list. -/
lemma fixedFramesGo_eq (outcome : ℕ → ExtractOutcome) :
    ∀ (ts : List ℚ) (idx : ℕ),
      fixedFramesGo outcome idx ts =
        (List.enumFrom idx ts).filterMap fun p =>
          if outcome p.1 = .ok then some ⟨p.2, framePath (p.1 + 1), p.1 + 1⟩
          else none := by
  intro ts
  induction ts with
  | nil => intro idx; rfl
  | cons t rest ih =>
    intro idx
    rw [fixedFramesGo, List.enumFrom, List.filterMap_cons]
    cases h : outcome idx <;> simp [h, ih (idx + 1)]

/-- With every extraction succeeding, the fixed-interval loop emits one frame
per target, numbered consecutively from `idx + 1`. -/
lemma fixedFramesGo_all_ok (outcome : ℕ → ExtractOutcome)
    (h : ∀ i, outcome i = .ok) :
    ∀ (ts : List ℚ) (idx : ℕ),
      (fixedFramesGo outcome idx ts).map XFrame.scene_number =
        List.range' (idx + 1) ts.length := by
  intro ts
  induction ts with
  | nil => intro idx; rfl
  | cons t rest ih =>
    intro idx
    rw [fixedFramesGo, h idx]
    simp [List.range', ih (idx + 1)]

/-- With every extraction failing, the fixed-interval loop emits nothing. -/
lemma fixedFramesGo_all_err (outcome : ℕ → ExtractOutcome)
    (h : ∀ i, outcome i = .err) :
    ∀ (ts : List ℚ) (idx : ℕ), fixedFramesGo outcome idx ts = [] := by
  intro ts
  induction ts with
  | nil => intro idx; rfl
  | cons t rest ih =>
    intro idx
    rw [fixedFramesGo, h idx]
    exact ih (idx + 1)

/-- The fixed-interval loop preserves the length of the emitted list under a
pointwise failure: failing the call at index `i` removes exactly the frame
numbered `i + 1` and leaves every other frame untouched. -/
lemma fixedFramesGo_single_err (outcome outcome2 : ℕ → ExtractOutcome) (i : ℕ)
    (hagree : ∀ j, j ≠ i → outcome2 j = outcome j) (herr : outcome2 i = .err) :
    ∀ (ts : List ℚ) (idx : ℕ),
      fixedFramesGo outcome2 idx ts =
        (fixedFramesGo outcome idx ts).filter
          fun f => decide (f.scene_number ≠ i + 1) := by
  intro ts
  induction ts with
  | nil => intro idx; rfl
  | cons t rest ih =>
    intro idx
    by_cases hidx : idx = i
    · subst hidx
      rw [fixedFramesGo, herr, fixedFramesGo]
      cases h : outcome idx <;>
        simp [List.filter_cons, h, ih (idx + 1)]
    · have h2 : outcome2 idx = outcome idx := hagree idx hidx
      rw [fixedFramesGo, h2, fixedFramesGo]
      cases h : outcome idx <;>
        simp [List.filter_cons, h, ih (idx + 1), hidx]

/-- With every extraction succeeding, the scene-detection loop emits one frame
per detected scene, numbered consecutively from `idx + 1`. -/
lemma sceneFramesGo_all_ok (outcome : ℕ → ExtractOutcome)
    (h : ∀ i, outcome i = .ok) :
    ∀ (ts : List ℚ) (idx : ℕ),
      ∃ fs, sceneFramesGo outcome idx ts = .ok fs ∧
        fs.map XFrame.scene_number = List.range' (idx + 1) ts.length := by
  intro ts
  induction ts with
  | nil => intro idx; exact ⟨[], rfl, rfl⟩
  | cons t rest ih =>
    intro idx
    obtain ⟨fs, hfs, hmap⟩ := ih (idx + 1)
    refine ⟨⟨t, scenePath (idx + 1), idx + 1⟩ :: fs, ?_, ?_⟩
    · rw [sceneFramesGo, h idx, hfs]
    · simp [List.range', hmap]

/-- A single raising ffmpeg call anywhere in the scene list makes the whole
scene-detection loop raise, discarding the frames collected so far. -/
lemma sceneFramesGo_err (outcome : ℕ → ExtractOutcome) :
    ∀ (ts : List ℚ) (idx : ℕ),
      (∃ j, j < ts.length ∧ outcome (idx + j) = .err) →
      sceneFramesGo outcome idx ts = .error () := by
  intro ts
  induction ts with
  | nil =>
    intro idx h
    obtain ⟨j, hj, _⟩ := h
    simp at hj
  | cons t rest ih =>
    intro idx h
    obtain ⟨j, hj, he⟩ := h
    cases hout : outcome idx
    case err => rw [sceneFramesGo, hout]
    case ok =>
      have hj0 : j ≠ 0 := by
        intro h0
        rw [h0, Nat.add_zero] at he
        rw [hout] at he
        exact absurd he (by simp)
      obtain ⟨j2, rfl⟩ := Nat.exists_eq_succ_of_ne_zero hj0
      have hrec : sceneFramesGo outcome (idx + 1) rest = .error () := by
        refine ih (idx + 1) ⟨j2, by simpa using hj, ?_⟩
        rw [← he]
        congr 1
        omega
      rw [sceneFramesGo, hout, hrec]
    case noFile =>
      have hj0 : j ≠ 0 := by
        intro h0
        rw [h0, Nat.add_zero] at he
        rw [hout] at he
        exact absurd he (by simp)
      obtain ⟨j2, rfl⟩ := Nat.exists_eq_succ_of_ne_zero hj0
      have hrec : sceneFramesGo outcome (idx + 1) rest = .error () := by
        refine ih (idx + 1) ⟨j2, by simpa using hj, ?_⟩
        rw [← he]
        congr 1
        omega
      rw [sceneFramesGo, hout]
      exact hrec

/-- The concrete target lists used in the counterexample and witnesses. -/
lemma target_times_two_one : target_times 2 1 = [0, 1] := by
  rw [target_times_eq (by norm_num : (0:ℚ) < 1)]
  have h : ⌈(2:ℚ)/1⌉ = 2 := by norm_num
  rw [h]
  show (List.range 2).map (fun (j : ℕ) => (j : ℚ) * 1) = [0, 1]
  simp [List.range_succ]

lemma target_times_one_one : target_times 1 1 = [0] := by
  rw [target_times_eq (by norm_num : (0:ℚ) < 1)]
  have h : ⌈(1:ℚ)/1⌉ = 1 := by norm_num
  rw [h]
  show (List.range 1).map (fun (j : ℕ) => (j : ℚ) * 1) = [0]
  simp [List.range_succ]

/-- Evaluation of a fixed-interval run of duration 2, interval 1, in which the
extraction at the first target timestamp (index 0) fails and the one at the
second (index 1) succeeds: the single emitted frame carries
`scene_number = 2`. -/
lemma extract_failFirst_eval :
    extract_frames_fixed_interval 2 1 failFirst =
      .ok [⟨1, framePath 2, 2⟩] := by
  rw [extract_frames_fixed_interval, if_neg (by norm_num)]
  have hframes : fixedFramesGo failFirst 0 (target_times 2 1) =
      [⟨1, framePath 2, 2⟩] := by
    rw [target_times_two_one]
    rw [fixedFramesGo, show failFirst 0 = .err from rfl]
    rw [fixedFramesGo, show failFirst 1 = .ok from rfl]
    rfl
  simp [hframes]

/-- Evaluation of an all-successful fixed-interval run of duration 1,
interval 1. -/
lemma extract_all_ok_eval :
    extract_frames_fixed_interval 1 1 (fun _ => .ok) =
      .ok [⟨0, framePath 1, 1⟩] := by
  rw [extract_frames_fixed_interval, if_neg (by norm_num)]
  have hframes : fixedFramesGo (fun _ => .ok) 0 (target_times 1 1) =
      [⟨0, framePath 1, 1⟩] := by
    rw [target_times_one_one]
    rfl
  simp [hframes]

/-- C1 counterexample: a fixed-interval run (duration 2, interval 1) in which
the per-timestamp extraction at the first target fails and is skipped.  The
run emits `N = 1` frame, but its `scene_number` is `2`, not the 1-based
position `1` in the emitted list: the emitted scene numbers `[2]` are not
`1..N = [1]`. -/
theorem C1_counterexample :
    (extract_frames_fixed_interval 2 1 failFirst).map
        (fun fs => fs.map XFrame.scene_number) = .ok [2] ∧
      ([2] : List ℕ) ≠ List.range' 1 1 := by
  constructor
  · rw [extract_failFirst_eval]
    rfl
  · decide

/-- C1 amended: each emitted frame's `scene_number` is the 1-based position of
its target timestamp in the target list (frames of skipped targets are simply
absent, leaving gaps); consequently, in a run in which no per-timestamp
extraction fails or is skipped — in either mode — the `scene_number` values
are exactly `1..N` in order. -/
theorem C1_amended_scene_numbering (duration interval : ℚ)
    (scene_list : List ℚ) (outcome outcome2 : ℕ → ExtractOutcome)
    (fallback : Except String (List XFrame)) :
    (∀ fs, extract_frames_fixed_interval duration interval outcome = .ok fs →
        fs = (List.enumFrom 0 (target_times duration interval)).filterMap
          fun p =>
            if outcome p.1 = .ok then some ⟨p.2, framePath (p.1 + 1), p.1 + 1⟩
            else none) ∧
    ((∀ i, outcome i = .ok) →
      ∀ fs, extract_frames_fixed_interval duration interval outcome = .ok fs →
        fs.map XFrame.scene_number = List.range' 1 fs.length) ∧
    ((∀ i, outcome2 i = .ok) → 1 ≤ scene_list.length →
      ∀ fs, extract_frames_scene_detection scene_list outcome2 fallback = .ok fs →
        fs.map XFrame.scene_number = List.range' 1 fs.length) := by
  refine ⟨?_, ?_, ?_⟩
  · intro fs hfs
    simp only [extract_frames_fixed_interval] at hfs
    split at hfs
    · exact absurd hfs (by simp)
    · split at hfs
      · exact absurd hfs (by simp)
      · cases hfs
        exact fixedFramesGo_eq outcome (target_times duration interval) 0
  · intro hok fs hfs
    simp only [extract_frames_fixed_interval] at hfs
    split at hfs
    · exact absurd hfs (by simp)
    · split at hfs
      · exact absurd hfs (by simp)
      · cases hfs
        have h := fixedFramesGo_all_ok outcome hok
          (target_times duration interval) 0
        rw [h]
        congr 1
        have hlen := congrArg List.length h
        rw [List.length_map, List.length_range'] at hlen
        exact hlen.symm
  · intro hok hlen fs hfs
    rw [extract_frames_scene_detection, if_neg (by omega)] at hfs
    obtain ⟨fs2, hfs2, hmap⟩ := sceneFramesGo_all_ok outcome2 hok scene_list 0
    rw [hfs2] at hfs
    cases hfs
    rw [hmap]
    congr 1
    have hlen2 := congrArg List.length hmap
    rw [List.length_map, List.length_range'] at hlen2
    exact hlen2.symm

/-- C1 witness: the amended theorem applied to an all-successful
fixed-interval run of duration 1, interval 1, whose single frame is numbered
`1`. -/
theorem C1_witness :
    ([⟨0, framePath 1, 1⟩] : List XFrame).map XFrame.scene_number =
      List.range' 1 ([⟨0, framePath 1, 1⟩] : List XFrame).length :=
  (C1_amended_scene_numbering 1 1 [0] (fun _ => .ok) (fun _ => .ok)
    (.ok [])).2.1 (fun _ => rfl) [⟨0, framePath 1, 1⟩] extract_all_ok_eval

/-- C3 counterexample: scene-detection run over two detected scenes in which
the extraction at the first scene succeeds and the one at the second fails.
The claim predicts the tier keeps its already-extracted first frame and only
skips the failing timestamp; in fact the failure raises out of the loop and
the whole tier is abandoned in favour of the fallback (here `.ok []`), so no
frame of the tier survives. -/
theorem C3_counterexample :
    extract_frames_scene_detection [0, 5] failAfterFirst (.ok []) = .ok [] ∧
      failAfterFirst 0 = .ok ∧ failAfterFirst 1 = .err := by
  refine ⟨?_, rfl, rfl⟩
  rw [extract_frames_scene_detection, if_neg (by simp)]
  rw [sceneFramesGo, show failAfterFirst 0 = .ok from rfl]
  rw [sceneFramesGo, show failAfterFirst 1 = .err from rfl]

/-- C3 amended: in fixed-interval mode a single-frame failure only skips that
timestamp — the run with the call at index `i` failing emits exactly the
frames of the unperturbed run minus the frame numbered `i + 1`; in the
scene-detection tier, by contrast, a single raising call anywhere in the
scene list abandons the tier (its already-extracted frames included) and the
run falls back to fixed-interval extraction. -/
theorem C3_amended_failure_isolation (ts scene_list : List ℚ)
    (outcome outcome2 outcome3 : ℕ → ExtractOutcome)
    (fallback : Except String (List XFrame)) (i : ℕ) :
    ((∀ j, j ≠ i → outcome2 j = outcome j) → outcome2 i = .err →
      fixedFramesGo outcome2 0 ts =
        (fixedFramesGo outcome 0 ts).filter
          fun f => decide (f.scene_number ≠ i + 1)) ∧
    ((∃ j, j < scene_list.length ∧ outcome3 j = .err) →
      extract_frames_scene_detection scene_list outcome3 fallback = fallback) := by
  constructor
  · intro hagree herr
    exact fixedFramesGo_single_err outcome outcome2 i hagree herr ts 0
  · intro hex
    have hpos : ¬ scene_list.length < 1 := by
      obtain ⟨j, hj, _⟩ := hex
      omega
    rw [extract_frames_scene_detection, if_neg hpos,
      sceneFramesGo_err outcome3 scene_list 0 (by simpa using hex)]

/-- C3 witness: the amended theorem applied to a one-scene detection run whose
only extraction fails; the result is the fallback. -/
theorem C3_witness :
    extract_frames_scene_detection [0] (fun _ => .err) (.ok []) = .ok [] :=
  (C3_amended_failure_isolation [] [0] (fun _ => .ok) (fun _ => .ok)
    (fun _ => .err) (.ok []) 0).2 ⟨0, by norm_num, rfl⟩

/-- C5: fixed-interval extraction fails with an error rather than returning an
empty success — it raises `durationErrMsg` when the probed duration is zero or
negative (ffprobe failures are reported as duration `0.0`), raises
`noFramesErrMsg` when every per-timestamp extraction fails, and any `.ok`
result is a non-empty frame list. -/
theorem C5_total_failure_fatal (duration interval : ℚ)
    (outcome : ℕ → ExtractOutcome) :
    (duration ≤ 0 →
      extract_frames_fixed_interval duration interval outcome =
        .error durationErrMsg) ∧
    ((∀ i, outcome i = .err) → 0 < duration →
      extract_frames_fixed_interval duration interval outcome =
        .error noFramesErrMsg) ∧
    (∀ fs, extract_frames_fixed_interval duration interval outcome = .ok fs →
      fs ≠ []) := by
  refine ⟨?_, ?_, ?_⟩
  · intro hD
    rw [extract_frames_fixed_interval, if_pos hD]
  · intro herr hD
    rw [extract_frames_fixed_interval, if_neg (by linarith),
      fixedFramesGo_all_err outcome herr]
    rfl
  · intro fs hfs
    simp only [extract_frames_fixed_interval] at hfs
    split at hfs
    · exact absurd hfs (by simp)
    · split at hfs
      case isTrue hempty =>
        exact absurd hfs (by simp)
      case isFalse hempty =>
        cases hfs
        simpa using hempty

/-- C5 witness: a run of positive duration in which every per-timestamp
extraction fails raises the extraction error. -/
theorem C5_witness :
    extract_frames_fixed_interval 1 1 (fun _ => .err) =
      .error noFramesErrMsg :=
  (C5_total_failure_fatal 1 1 (fun _ => .err)).2.1 (fun _ => rfl) (by norm_num)

/-! ## Dialogue alignment (audio.py) -/

/-- The inner loop of `match_dialogue_to_scenes` collects, in their original
order, the texts of exactly the segments overlapping the ±5s window, both
comparisons inclusive. -/
lemma matched_texts_eq (scene_time : ℚ) (ds : List Dialogue) :
    matched_texts scene_time ds =
      (ds.filter fun d =>
        decide (d.start ≤ scene_time + 5 ∧ d.stop ≥ scene_time - 5)).map
        Dialogue.text := by
  induction ds with
  | nil => rfl
  | cons d rest ih =>
    rw [matched_texts, List.filter_cons]
    by_cases h : d.start ≤ scene_time + 5 ∧ d.stop ≥ scene_time - 5
    · rw [if_pos h, decide_eq_true h, if_pos rfl, List.map_cons, ih]
    · rw [if_neg h, decide_eq_false h, if_neg (by simp), ih]

/-- Per-scene effect of `match_dialogue_to_scenes`: the attached dialogue list
is the filtered texts, and `has_dialogue` is its non-emptiness. -/
lemma enhance_scene_eq (ds : List Dialogue) (s : Scene) :
    enhance_scene ds s =
      { s with
        dialogues := matched_texts s.timestamp ds,
        has_dialogue := decide (matched_texts s.timestamp ds ≠ []) } := by
  rw [enhance_scene]
  by_cases h : matched_texts s.timestamp ds ≠ []
  · rw [if_pos h]
    simp [h]
  · rw [if_neg h]
    push_neg at h
    simp [h]

/-- C4: the aligner attaches segment `d` to frame `f` iff
`d.start ≤ f.timestamp + 5` and `d.end ≥ f.timestamp − 5`, both inclusive;
the matched texts keep the segments' original order, a frame with zero matches
gets an empty dialogue list with `has_dialogue = false`, and the output is one
frame per input frame in the same order. -/
theorem C4_dialogue_alignment (scenes : List Scene) (dialogues : List Dialogue) :
    match_dialogue_to_scenes scenes dialogues =
      scenes.map (fun s =>
        { s with
          dialogues := ((dialogues.filter fun d =>
              decide (d.start ≤ s.timestamp + 5 ∧
                d.stop ≥ s.timestamp - 5)).map Dialogue.text),
          has_dialogue := decide (((dialogues.filter fun d =>
              decide (d.start ≤ s.timestamp + 5 ∧
                d.stop ≥ s.timestamp - 5)).map Dialogue.text) ≠ []) }) ∧
    (match_dialogue_to_scenes scenes dialogues).length = scenes.length := by
  constructor
  · rw [match_dialogue_to_scenes]
    apply List.map_congr_left
    intro s _
    rw [enhance_scene_eq, matched_texts_eq]
  · rw [match_dialogue_to_scenes, List.length_map]

/-! ## Transcript segmentation (audio.py) -/

/-- C9: the transcript segmenter keeps exactly the spans whose duration
`end − start` is at least `min_duration`, in their original order, with each
kept span's text trimmed of surrounding whitespace (and its `duration` field
set to `end − start`); short spans are dropped, never merged. -/
theorem C9_transcript_filtering (segments : List Span) (min_duration : ℚ) :
    extract_dialogue_segments segments min_duration =
      (segments.filter fun s => decide (s.stop - s.start ≥ min_duration)).map
        fun s => ⟨s.start, s.stop, s.stop - s.start, s.text.trim⟩ := by
  induction segments with
  | nil => rfl
  | cons s rest ih =>
    rw [extract_dialogue_segments, List.filter_cons]
    by_cases h : s.stop - s.start ≥ min_duration
    · rw [if_pos h, decide_eq_true h, if_pos rfl, List.map_cons, ih]
    · rw [if_neg h, decide_eq_false h, if_neg (by simp), ih]

/-! ## Frame-effect of the aligner and the deduplicator -/

/-- One step of `merge_consecutive_dialogues` copies the scene and touches
only `dialogues` and `has_dialogue`. -/
lemma mergeScene_preserves (seen : List String) (s : Scene) :
    preserves_other_fields (mergeScene seen s).1 s := by
  rw [mergeScene]
  split
  · exact ⟨rfl, rfl, rfl, rfl, rfl⟩
  · exact ⟨rfl, rfl, rfl, rfl, rfl⟩

/-- The dedup loop returns one scene per input scene, in order, each
preserving every field other than `dialogues` and `has_dialogue`. -/
lemma mergeGo_preserves :
    ∀ (scenes : List Scene) (seen : List String),
      List.Forall₂ preserves_other_fields (mergeGo seen scenes) scenes := by
  intro scenes
  induction scenes with
  | nil => intro seen; exact List.Forall₂.nil
  | cons s rest ih =>
    intro seen
    exact List.Forall₂.cons (mergeScene_preserves seen s) (ih _)

/-- C10: the dialogue-scene aligner and the deduplication step each return
exactly one output frame per input frame, in the same order
(`List.Forall₂` enforces equal length and positional correspondence), and
leave every frame field other than `dialogues` and `has_dialogue` unchanged. -/
theorem C10_frame_effect (scenes : List Scene) (dialogues : List Dialogue) :
    List.Forall₂ preserves_other_fields
      (match_dialogue_to_scenes scenes dialogues) scenes ∧
    List.Forall₂ preserves_other_fields
      (merge_consecutive_dialogues scenes) scenes := by
  constructor
  · rw [match_dialogue_to_scenes]
    induction scenes with
    | nil => exact List.Forall₂.nil
    | cons s rest ih =>
      refine List.Forall₂.cons ?_ ih
      rw [enhance_scene_eq]
      exact ⟨rfl, rfl, rfl, rfl, rfl⟩
  · rw [merge_consecutive_dialogues]
    split
    · next h =>
      simp only [List.isEmpty_iff] at h
      rw [h]
      exact List.Forall₂.nil
    · exact mergeGo_preserves scenes []

/-! ## Dialogue deduplication (narrator.py) -/

/-- The kept dialogues of the dedup loop form a sublist (ordered selection) of
the input dialogues. -/
lemma dedupDialogues_sublist :
    ∀ (xs seen : List String), (dedupDialogues seen xs).1.Sublist xs := by
  intro xs
  induction xs with
  | nil => intro seen; exact List.Sublist.refl []
  | cons x rest ih =>
    intro seen
    rw [dedupDialogues]
    by_cases h : fingerprint x ∈ seen
    · rw [if_pos h]
      exact (ih seen).cons x
    · rw [if_neg h]
      exact (ih (fingerprint x :: seen)).cons₂ x

/-- Splitting the dedup loop across an append: the second half runs with the
seen set left by the first half. -/
lemma dedupDialogues_append :
    ∀ (xs ys seen : List String),
      dedupDialogues seen (xs ++ ys) =
        ((dedupDialogues seen xs).1 ++
            (dedupDialogues (dedupDialogues seen xs).2 ys).1,
          (dedupDialogues (dedupDialogues seen xs).2 ys).2) := by
  intro xs
  induction xs with
  | nil => intro ys seen; simp [dedupDialogues]
  | cons x rest ih =>
    intro ys seen
    rw [List.cons_append, dedupDialogues, dedupDialogues]
    by_cases h : fingerprint x ∈ seen
    · rw [if_pos h, if_pos h]
      exact ih ys seen
    · rw [if_neg h, if_neg h]
      rw [ih ys (fingerprint x :: seen)]
      simp

/-- The fingerprints of the kept dialogues are pairwise distinct and disjoint
from the initial seen set. -/
lemma dedupDialogues_kept_keys :
    ∀ (xs seen : List String),
      ((dedupDialogues seen xs).1.map fingerprint).Nodup ∧
        ∀ k ∈ (dedupDialogues seen xs).1.map fingerprint, k ∉ seen := by
  intro xs
  induction xs with
  | nil => intro seen; exact ⟨List.nodup_nil, by simp [dedupDialogues]⟩
  | cons x rest ih =>
    intro seen
    rw [dedupDialogues]
    by_cases h : fingerprint x ∈ seen
    · rw [if_pos h]
      exact ih seen
    · rw [if_neg h]
      obtain ⟨hnd, hfresh⟩ := ih (fingerprint x :: seen)
      refine ⟨?_, ?_⟩
      · rw [List.map_cons, List.nodup_cons]
        refine ⟨fun hmem => ?_, hnd⟩
        exact absurd (List.mem_cons_self _ _) (hfresh _ hmem)
      · intro k hk
        rw [List.map_cons, List.mem_cons] at hk
        rcases hk with rfl | hk
        · exact h
        · intro hks
          exact hfresh k hk (List.mem_cons_of_mem _ hks)

/-- On an input whose fingerprints are pairwise distinct and unseen, the dedup
loop keeps everything, pushing the new keys (in reverse) onto the seen set. -/
lemma dedupDialogues_all_fresh :
    ∀ (xs seen : List String),
      (xs.map fingerprint).Nodup →
      (∀ k ∈ xs.map fingerprint, k ∉ seen) →
      dedupDialogues seen xs = (xs, (xs.map fingerprint).reverse ++ seen) := by
  intro xs
  induction xs with
  | nil => intro seen _ _; simp [dedupDialogues]
  | cons x rest ih =>
    intro seen hnd hfresh
    rw [dedupDialogues,
      if_neg (hfresh (fingerprint x) (by simp))]
    rw [List.map_cons, List.nodup_cons] at hnd
    have hrec := ih (fingerprint x :: seen) hnd.2 ?_
    · rw [hrec]
      simp [List.append_assoc]
    · intro k hk
      rw [List.mem_cons]
      push_neg
      exact ⟨fun he => hnd.1 (he ▸ hk), hfresh k (List.mem_cons_of_mem _ hk)⟩

/-- The kept dialogues, expressed without the seen-set threading: they are the
first occurrences (by fingerprint) among the dialogues not already seen. -/
lemma dedupDialogues_eq_keepFirst :
    ∀ (xs seen : List String),
      (dedupDialogues seen xs).1 =
        keepFirstOccurrences (xs.filter fun d => decide (fingerprint d ∉ seen)) := by
  intro xs
  induction xs with
  | nil => intro seen; simp [dedupDialogues, keepFirstOccurrences]
  | cons x rest ih =>
    intro seen
    rw [dedupDialogues, List.filter_cons]
    by_cases h : fingerprint x ∈ seen
    · rw [if_pos h, if_neg (by simp [h]), ih seen]
    · rw [if_neg h, if_pos (by simp [h]), keepFirstOccurrences]
      dsimp only
      rw [ih (fingerprint x :: seen)]
      congr 1
      rw [List.filter_filter]
      congr 1
      apply List.filter_congr
      intro d _
      by_cases h1 : fingerprint d ∈ seen <;>
        by_cases h2 : fingerprint d = fingerprint x <;>
          simp [h1, h2, List.mem_cons]

/-- One scene per input scene. -/
lemma mergeGo_length :
    ∀ (scenes : List Scene) (seen : List String),
      (mergeGo seen scenes).length = scenes.length := by
  intro scenes
  induction scenes with
  | nil => intro seen; rfl
  | cons s rest ih =>
    intro seen
    rw [mergeGo, List.length_cons, List.length_cons, ih]

/-- Joined across the frames, the dedup pass over the scene list is exactly
the dedup loop over the concatenated dialogue lists. -/
lemma mergeGo_join :
    ∀ (scenes : List Scene) (seen : List String),
      ((mergeGo seen scenes).map Scene.dialogues).flatten =
        (dedupDialogues seen ((scenes.map Scene.dialogues).flatten)).1 := by
  intro scenes
  induction scenes with
  | nil => intro seen; rfl
  | cons s rest ih =>
    intro seen
    rw [mergeGo, mergeScene]
    by_cases h : s.dialogues.isEmpty
    · rw [if_pos h]
      rw [List.isEmpty_iff] at h
      simp only [List.map_cons, List.flatten_cons, h, List.nil_append]
      exact ih seen
    · rw [if_neg h]
      simp only [List.map_cons, List.flatten_cons]
      rw [dedupDialogues_append, ih]

/-- Every scene the dedup pass outputs with a non-empty dialogue list has
`has_dialogue = true`. -/
lemma mergeGo_flag :
    ∀ (scenes : List Scene) (seen : List String),
      ∀ s ∈ mergeGo seen scenes, ¬ s.dialogues.isEmpty = true →
        s.has_dialogue = true := by
  intro scenes
  induction scenes with
  | nil => intro seen s hs; exact absurd hs (List.not_mem_nil s)
  | cons sc rest ih =>
    intro seen s hs hne
    rw [mergeGo, List.mem_cons] at hs
    rcases hs with rfl | hs
    · rw [mergeScene]
      by_cases h : sc.dialogues.isEmpty
      · rw [if_pos h]
        rw [mergeScene, if_pos h] at hne
        exact absurd h hne
      · rw [if_neg h]
        rw [mergeScene, if_neg h] at hne
        simp only at hne ⊢
        rw [decide_eq_true_eq]
        rw [List.isEmpty_iff] at hne
        exact List.length_pos_of_ne_nil hne
    · exact ih _ s hs hne

/-- A scene list whose concatenated dialogue fingerprints are pairwise
distinct and unseen, and whose `has_dialogue` flags already agree with
non-emptiness, is a fixed point of the dedup pass. -/
lemma mergeGo_id :
    ∀ (scenes : List Scene) (seen : List String),
      (((scenes.map Scene.dialogues).flatten.map fingerprint).Nodup) →
      (∀ k ∈ (scenes.map Scene.dialogues).flatten.map fingerprint, k ∉ seen) →
      (∀ s ∈ scenes, ¬ s.dialogues.isEmpty = true → s.has_dialogue = true) →
      mergeGo seen scenes = scenes := by
  intro scenes
  induction scenes with
  | nil => intro seen _ _ _; rfl
  | cons s rest ih =>
    intro seen hnd hfresh hflag
    simp only [List.map_cons, List.flatten_cons, List.map_append,
      List.nodup_append] at hnd
    obtain ⟨hnd1, hnd2, hdisj⟩ := hnd
    have hfresh1 : ∀ k ∈ s.dialogues.map fingerprint, k ∉ seen := by
      intro k hk
      exact hfresh k (by simp only [List.map_cons, List.flatten_cons,
        List.map_append, List.mem_append]; exact Or.inl hk)
    have hfresh2 : ∀ k ∈ (rest.map Scene.dialogues).flatten.map fingerprint,
        k ∉ seen := by
      intro k hk
      exact hfresh k (by simp only [List.map_cons, List.flatten_cons,
        List.map_append, List.mem_append]; exact Or.inr hk)
    rw [mergeGo, mergeScene]
    by_cases h : s.dialogues.isEmpty
    · rw [if_pos h]
      rw [ih seen hnd2 hfresh2 (fun t ht => hflag t (List.mem_cons_of_mem _ ht))]
    · rw [if_neg h]
      rw [dedupDialogues_all_fresh s.dialogues seen hnd1 hfresh1]
      dsimp only
      have hflag_s : s.has_dialogue = true := hflag s (List.mem_cons_self _ _) h
      have hpos : decide (0 < s.dialogues.length) = true := by
        rw [decide_eq_true_eq]
        rw [List.isEmpty_iff] at h
        exact List.length_pos_of_ne_nil h
      have hsc : ({ s with
          dialogues := s.dialogues,
          has_dialogue := decide (0 < s.dialogues.length) } : Scene) = s := by
        cases s
        simp only [Scene.mk.injEq, and_true, true_and]
        simp only at hflag_s hpos
        rw [hpos, hflag_s]
      rw [hsc]
      congr 1
      apply ih _ hnd2
      · intro k hk
        simp only [List.mem_append, List.mem_reverse]
        push_neg
        exact ⟨fun hks => hdisj hks hk, hfresh2 k hk⟩
      · exact fun t ht => hflag t (List.mem_cons_of_mem _ ht)

/-- Each output scene's dialogue list is an ordered selection from the same
scene's input dialogue list. -/
lemma mergeGo_sublist :
    ∀ (scenes : List Scene) (seen : List String),
      List.Forall₂ (fun o s => o.dialogues.Sublist s.dialogues)
        (mergeGo seen scenes) scenes := by
  intro scenes
  induction scenes with
  | nil => intro seen; exact List.Forall₂.nil
  | cons s rest ih =>
    intro seen
    rw [mergeGo]
    refine List.Forall₂.cons ?_ (ih _)
    rw [mergeScene]
    by_cases h : s.dialogues.isEmpty
    · rw [if_pos h]
    · rw [if_neg h]
      exact dedupDialogues_sublist s.dialogues seen

/-- C7 counterexample: a single frame carrying the same dialogue string twice.
No fingerprint was seen on an EARLIER frame, so the claim predicts both copies
are kept; the code also consults fingerprints recorded earlier within the same
frame and drops the second copy. -/
theorem C7_counterexample :
    (merge_consecutive_dialogues
        [⟨0, "p", 1, "c", [], ["hi", "hi"], true⟩]).map Scene.dialogues =
      [["hi"]] ∧ ([["hi"]] : List (List String)) ≠ [["hi", "hi"]] := by
  constructor
  · rw [merge_consecutive_dialogues, if_neg (by simp)]
    rw [mergeGo, mergeScene]
    rw [if_neg (by simp)]
    have hd : dedupDialogues [] ["hi", "hi"] = (["hi"], [fingerprint "hi"]) := by
      rw [dedupDialogues, if_neg (List.not_mem_nil _)]
      rw [dedupDialogues, if_pos (List.mem_cons_self _ _)]
      rfl
    rw [hd]
    rfl
  · intro h
    have := congrArg (fun l => (l.headD []).length) h
    simp at this

/-- C7 amended: the deduplication step processes frames in order, keeping one
output frame per input frame whose dialogue list is an ordered selection of
the input one, and — taking all dialogue strings of the run in processing
order — it keeps exactly those whose fingerprint (first 50 characters,
lowercased, trimmed) has not occurred on any earlier dialogue string of the
run, whether that earlier occurrence was on an earlier frame or earlier in
the same frame's dialogue list. -/
theorem C7_amended_dedup_rule (scenes : List Scene) :
    ((merge_consecutive_dialogues scenes).map Scene.dialogues).flatten =
      keepFirstOccurrences ((scenes.map Scene.dialogues).flatten) ∧
    List.Forall₂ (fun o s => o.dialogues.Sublist s.dialogues)
      (merge_consecutive_dialogues scenes) scenes := by
  rw [merge_consecutive_dialogues]
  by_cases h : scenes.isEmpty
  · rw [if_pos h]
    rw [List.isEmpty_iff] at h
    subst h
    exact ⟨by simp [keepFirstOccurrences], List.Forall₂.nil⟩
  · rw [if_neg h]
    refine ⟨?_, mergeGo_sublist scenes []⟩
    rw [mergeGo_join, dedupDialogues_eq_keepFirst]
    congr 1
    apply List.filter_eq_self.mpr
    intro a _
    simp

/-- C8: the deduplication step is idempotent — applied to its own output it
returns that output unchanged.  The output's dialogue fingerprints are
pairwise distinct across the whole run (each kept string was the first
occurrence of its fingerprint), so a second pass drops nothing, and the
`has_dialogue` flags it would recompute already hold. -/
theorem C8_dedup_idempotent (scenes : List Scene) :
    merge_consecutive_dialogues (merge_consecutive_dialogues scenes) =
      merge_consecutive_dialogues scenes := by
  by_cases h : scenes.isEmpty
  · rw [List.isEmpty_iff] at h
    subst h
    rfl
  · have houter : merge_consecutive_dialogues scenes = mergeGo [] scenes := by
      rw [merge_consecutive_dialogues, if_neg h]
    have hne : (mergeGo [] scenes).isEmpty = false := by
      by_contra hc
      have ht : (mergeGo [] scenes).isEmpty = true := by
        revert hc
        cases (mergeGo [] scenes).isEmpty <;> simp
      rw [List.isEmpty_iff] at ht
      have hlen := mergeGo_length scenes []
      rw [ht] at hlen
      have hs0 : scenes = [] := List.eq_nil_of_length_eq_zero hlen.symm
      rw [hs0] at h
      exact h rfl
    rw [houter, merge_consecutive_dialogues,
      if_neg (by rw [hne]; exact Bool.false_ne_true)]
    apply mergeGo_id
    · rw [mergeGo_join]
      exact (dedupDialogues_kept_keys _ _).1
    · intro k _ hk
      exact absurd hk (List.not_mem_nil k)
    · exact mergeGo_flag scenes []

/-! ## Context windowing (narrative.py) -/

/-- Members of `pyRange a b s` (for positive step) lie in `[a, b)`. -/
lemma pyRange_mem {a b s x : ℕ} (hs : 0 < s) (hx : x ∈ pyRange a b s) :
    a ≤ x ∧ x < b := by
  rw [pyRange, if_neg (by omega)] at hx
  simp only [List.mem_map, List.mem_range] at hx
  obtain ⟨k, hk, rfl⟩ := hx
  refine ⟨Nat.le_add_right a (k * s), ?_⟩
  have h2 : (k + 1) * s ≤ b - a + s - 1 :=
    (Nat.le_div_iff_mul_le hs).mp (Nat.succ_le_of_lt hk)
  rw [Nat.succ_mul] at h2
  generalize k * s = m at h2 ⊢
  omega

/-- Length of `pyRange` for positive step: the standard ceiling count. -/
lemma pyRange_length {a b s : ℕ} (hs : 0 < s) :
    (pyRange a b s).length = (b - a + s - 1) / s := by
  rw [pyRange, if_neg (by omega), List.length_map, List.length_range]

/-- Indexing a list at `0, 1, 2` collects its first three elements. -/
lemma filterMap_get?_first3 {α : Type} (l : List α) (h : 3 ≤ l.length) :
    [0, 1, 2].filterMap l.get? = l.take 3 := by
  match l with
  | [] => simp at h
  | [a] => simp at h
  | [a, b] => simp at h
  | a :: b :: c :: t => rfl

/-- Indexing a list at `n, n+1, …, n+k-1` when `n + k` is its length collects
its last `k` elements. -/
lemma range'_filterMap_get? {α : Type} :
    ∀ (k n : ℕ) (l : List α), l.length = n + k →
      (List.range' n k).filterMap l.get? = l.drop n := by
  intro k
  induction k with
  | zero =>
    intro n l h
    rw [List.range'_zero, List.filterMap_nil]
    exact (List.drop_of_length_le (by omega)).symm
  | succ k ih =>
    intro n l h
    have hn : n < l.length := by omega
    rw [List.range'_succ]
    simp only [List.filterMap_cons, List.get?_eq_get hn]
    rw [ih (n + 1) l (by omega), List.drop_eq_getElem_cons hn,
      List.get_eq_getElem]

/-- When every index is in range, no element is dropped by the fetch. -/
lemma filterMap_get?_length {α : Type} (l : List α) :
    ∀ (ixs : List ℕ), (∀ i ∈ ixs, i < l.length) →
      (ixs.filterMap l.get?).length = ixs.length := by
  intro ixs
  induction ixs with
  | nil => intro _; rfl
  | cons i rest ih =>
    intro h
    have hi : i < l.length := h i (List.mem_cons_self _ _)
    simp only [List.filterMap_cons, List.get?_eq_get hi, List.length_cons]
    rw [ih (fun j hj => h j (List.mem_cons_of_mem _ hj))]

/-- C6 counterexample: with exactly 16 frames the claim demands at most 15
selected frames, but the computed stride is `(16-6) / 9 = 1`, so the middle
range `range(3, 13, 1)` contributes 10 frames and the selection keeps all 16
input frames. -/
theorem C6_counterexample :
    15 < (List.range 16).length ∧
      (select_frames (List.range 16)).length = 16 := by
  decide

/-- C6 amended: for at most 15 frames everything is passed.  For more than 15
frames the selection is the first 3 frames, then the frames at indices
`3, 3+s, 3+2s, …` below `total−3` with stride `s = (total−6) / 9`, then the
last 3 frames; the middle part drops nothing and contains AT LEAST 9 frames —
possibly more, so the total selection may exceed 15. -/
theorem C6_amended_context_window {α : Type} (frames : List α) :
    (frames.length ≤ 15 → select_frames frames = frames) ∧
    (15 < frames.length →
      select_frames frames =
        frames.take 3 ++
          (pyRange 3 (frames.length - 3) ((frames.length - 6) / 9)).filterMap
            (fun i => frames.get? i) ++
          frames.drop (frames.length - 3) ∧
      ((pyRange 3 (frames.length - 3) ((frames.length - 6) / 9)).filterMap
          (fun i => frames.get? i)).length =
        (pyRange 3 (frames.length - 3) ((frames.length - 6) / 9)).length ∧
      9 ≤ (pyRange 3 (frames.length - 3) ((frames.length - 6) / 9)).length ∧
      ∀ i ∈ pyRange 3 (frames.length - 3) ((frames.length - 6) / 9),
        3 ≤ i ∧ i < frames.length - 3) := by
  constructor
  · intro h
    rw [select_frames, if_pos h]
  · intro hT
    have hs : 0 < (frames.length - 6) / 9 := by omega
    have hmem : ∀ i ∈ pyRange 3 (frames.length - 3) ((frames.length - 6) / 9),
        3 ≤ i ∧ i < frames.length - 3 := fun i hi => pyRange_mem hs hi
    refine ⟨?_, ?_, ?_, hmem⟩
    · have hfix : select_frames frames =
          ([0, 1, 2] ++ pyRange 3 (frames.length - 3) ((frames.length - 6) / 9) ++
            [frames.length - 3, frames.length - 2, frames.length - 1]).filterMap
            (fun i => frames.get? i) := by
        rw [select_frames]
        dsimp only
        rw [if_neg (by omega),
          Nat.min_eq_left (by omega : 9 ≤ frames.length - 6),
          if_pos (by norm_num : (0:ℕ) < 9)]
        congr 1
        apply List.filter_eq_self.mpr
        intro i hi
        rw [decide_eq_true_eq]
        simp only [List.mem_append, List.mem_cons, List.not_mem_nil,
          or_false] at hi
        rcases hi with ((rfl | rfl | rfl) | hi) | (rfl | rfl | rfl)
        · omega
        · omega
        · omega
        · have := (pyRange_mem hs hi).2
          omega
        · omega
        · omega
        · omega
      rw [hfix, List.filterMap_append, List.filterMap_append]
      have hlast : [frames.length - 3, frames.length - 2, frames.length - 1] =
          List.range' (frames.length - 3) 3 := by
        rw [List.range'_succ, List.range'_succ, List.range'_succ,
          List.range'_zero]
        rw [show frames.length - 3 + 1 = frames.length - 2 by omega,
          show frames.length - 2 + 1 = frames.length - 1 by omega]
      rw [hlast, range'_filterMap_get? 3 (frames.length - 3) frames (by omega),
        filterMap_get?_first3 frames (by omega)]
    · exact filterMap_get?_length frames _
        (fun i hi => by have := (pyRange_mem hs hi).2; omega)
    · rw [pyRange_length hs,
        show frames.length - 3 - 3 = frames.length - 6 by omega]
      rw [Nat.le_div_iff_mul_le hs]
      omega

/-- C6 witness: the amended theorem applied to 16 frames, where the middle
part has 10 frames (more than 9) and the whole selection has 16. -/
theorem C6_witness :
    9 ≤ (pyRange 3 ((List.range 16).length - 3)
      (((List.range 16).length - 6) / 9)).length :=
  ((C6_amended_context_window (List.range 16)).2 (by decide)).2.2.1

end FrameForge
